import Mathlib

/-!
Verification of the process-control and breakpoint engine of the `deet`
debugger (src/proj-1/deet/src/inferior.rs), shallowly embedded in Lean.

The embedding models the inferior's memory as seen through ptrace as a
partial map from addresses to 64-bit words, and the `Inferior` struct's
fields (`stopped`, `orig_bytes`) explicitly.  Fallible Rust functions
become `Except`-valued Lean functions; Rust panics (`unwrap`, `panic!`)
are modelled as distinguished error values so that "returns Err" and
"panics" stay distinguishable.  External events (what `waitpid` reports
after a single-step or a continue) are inputs supplied by an environment
record, since they are decided by the traced process, not by this code.
-/

namespace Deet

/-- Inferior memory as seen through ptrace: a partial map from an address to
the 64-bit machine word stored there.  `none` models an unmapped or
inaccessible address (ptrace reports an errno).  `write_byte` only ever
accesses the word at the aligned address, and the backtrace walker only
reads, so no consistency between overlapping words is needed. -/
abbrev Mem := Nat → Option Nat

/-- How an embedded Rust function can abort.  `nixErr` is a `nix::Error`
returned as `Err` to the caller; the remaining constructors model Rust
panics, kept distinct by site so theorems can tell them apart:
`unwrapPanic` for `.unwrap()` on an `Err`/`None` of a ptrace call or a
symbol lookup, `mapGetPanic` for `self.orig_bytes.get(..).unwrap()` in
`cont`, `waitPanic` for the `panic!` in `Inferior::wait` on an unexpected
wait status, and `fuelOut` is the fuel-exhaustion marker used to embed the
source's unbounded backtrace loop (the termination theorem shows it is not
reached when the frame chain reaches `main`). -/
inductive RunError where
  | nixErr
  | unwrapPanic
  | mapGetPanic
  | waitPanic
  | fuelOut
deriving DecidableEq

/-- Models `ptrace::read` (PTRACE_PEEKDATA): read the word at `addr`,
failing on an unmapped address. -/
def ptraceRead (mem : Mem) (addr : Nat) : Except RunError Nat :=
  match mem addr with
  | none => .error .nixErr
  | some w => .ok w

/-- Models `ptrace::write` (PTRACE_POKEDATA): replace the word at `addr`,
failing on an unmapped address. -/
def ptraceWrite (mem : Mem) (addr word : Nat) : Except RunError Mem :=
  match mem addr with
  | none => .error .nixErr
  | some _ => .ok (fun a => if a = addr then some word else mem a)

/-- Rust `fn align_addr_to_word(addr: usize) -> usize { addr & (-(size_of::<usize>() as isize) as usize) }`
On the 64-bit host `size_of::<usize>()` is 8, so the mask
`-(8 as isize) as usize` is `2^64 - 8`. -/
def align_addr_to_word (addr : Nat) : Nat :=
  addr &&& (2 ^ 64 - 8)

/-- Model of `Inferior::write_byte(&mut self, addr, val) -> Result<u8, nix::Error>`:
aligned word read-modify-write.  The mutable memory is threaded
explicitly: the result pairs the returned original byte with the updated
memory.  `!(0xff << 8*byte_offset)` on `u64` is complement within 64 bits,
i.e. xor with `2^64 - 1`. -/
def write_byte (mem : Mem) (addr : Nat) (val : Nat) : Except RunError (Nat × Mem) :=
  let aligned_addr := align_addr_to_word addr
  let byte_offset := addr - aligned_addr
  match ptraceRead mem aligned_addr with
  | .error e => .error e
  | .ok word =>
    let orig_byte := (word >>> (8 * byte_offset)) &&& 0xff
    let masked_word := word &&& ((2 ^ 64 - 1) ^^^ (0xff <<< (8 * byte_offset)))
    let updated_word := masked_word ||| (val <<< (8 * byte_offset))
    match ptraceWrite mem aligned_addr updated_word with
    | .error e => .error e
    | .ok mem' => .ok (orig_byte, mem')

/-- The word produced by the shift-and-mask surgery in `write_byte`. -/
def patchWord (word k val : Nat) : Nat :=
  (word &&& ((2 ^ 64 - 1) ^^^ (0xff <<< (8 * k)))) ||| (val <<< (8 * k))

/-- Byte `j` of a word, little-endian, stated arithmetically as the spec
reads it. -/
def wordByte (w j : Nat) : Nat := w / 256 ^ j % 256

/-- Signals, as far as `inferior.rs` distinguishes them: `cont` tests
specifically for SIGTRAP; everything else only flows through. -/
inductive Signal where
  | SIGTRAP
  | SIGSEGV
  | SIGINT
  | SIGKILL
deriving DecidableEq

/-- Model of `enum Status` of inferior.rs: the classified wait result. -/
inductive Status where
  | Stopped (signal : Signal) (rip : Nat)
  | Exited (code : Int)
  | Signaled (signal : Signal)
deriving DecidableEq

/-- The registers `cont` and `print_backtrace` touch. -/
structure Regs where
  rip : Nat
  rbp : Nat
deriving DecidableEq

/-- Model of `struct Inferior`: its bookkeeping (`stopped`, `orig_bytes`) together with
the traced process's memory and registers, which the Rust code reaches
through ptrace.  `orig_bytes : HashMap<usize, u8>` is modelled as a map
`Nat → Option Nat`. -/
structure Inferior where
  stopped : Option Nat
  orig_bytes : Nat → Option Nat
  mem : Mem
  regs : Regs

/-- Model of `HashMap::insert`: record (or overwrite) a key's value. -/
def insertMap (m : Nat → Option Nat) (k v : Nat) : Nat → Option Nat :=
  fun a => if a = k then some v else m a

/-- One event reported by `waitpid`, together with the register state the
traced process has when it stops.  These are environment inputs: they are
decided by the traced process's execution, not by the debugger code.
`other` stands for the wait statuses outside the three modelled classes,
on which `Inferior::wait` panics. -/
inductive WaitEvent where
  | exited (code : Int)
  | signaled (sig : Signal)
  | stopped (sig : Signal) (regs : Regs)
  | other
deriving DecidableEq

/-- Model of `Inferior::wait`: classify a `waitpid` result.  On a stop the code calls
`ptrace::getregs` and reports the current `%rip`; in the model the event
carries the registers the process stopped with and the inferior's register
state becomes them (`getregs` is modelled as infallible while the process
exists).  The `other => panic!(..)` arm becomes the `waitPanic` error. -/
def waitOn (st : Inferior) (ev : WaitEvent) : Except RunError (Status × Inferior) :=
  match ev with
  | .exited c => .ok (.Exited c, st)
  | .signaled s => .ok (.Signaled s, st)
  | .stopped s regs => .ok (.Stopped s regs.rip, { st with regs := regs })
  | .other => .error .waitPanic

/-- The warning block `cont` prints when a breakpoint cannot be inserted
(`Cannot insert breakpoint {index}` / `Cannot access memory at address ..`),
modelled structurally. -/
inductive LogMsg where
  | warnCannotInsert (index : Nat) (addr : Nat)
deriving DecidableEq

/-- What one `cont` call produces: the final `Inferior` state, the returned
`Result<Status, nix::Error>` (or panic marker) and the warnings printed. -/
structure ContOutcome where
  inf : Inferior
  res : Except RunError Status
  log : List LogMsg

/-- The environment of one `cont` call: whether `ptrace::step` itself
succeeds, the wait event after the single-step, and the wait event after
`ptrace::cont`. -/
structure ContEnv where
  stepOk : Bool
  stepEvent : WaitEvent
  contEvent : WaitEvent

/-- The `for (index, &breakpoint) in breakpoints.iter().enumerate()` install
loop of `cont`: patch 0xcc at every listed breakpoint, recording each
replaced byte in `orig_bytes`; stop at the first failing address and
report its index and address. -/
def installLoop (mem : Mem) (ob : Nat → Option Nat) (index : Nat) :
    List Nat → (Mem × (Nat → Option Nat)) × Option (Nat × Nat)
  | [] => ((mem, ob), none)
  | bp :: rest =>
    match write_byte mem bp 0xcc with
    | .ok (orig_byte, mem') => installLoop mem' (insertMap ob bp orig_byte) (index + 1) rest
    | .error _ => ((mem, ob), some (index, bp))

/-- The `for &breakpoint in breakpoints` loop of `cont` after the stop: at
the first breakpoint equal to `rip - 1`, write back the saved original
byte (the source's `.unwrap()`s panic when the map lookup or the write
fails), rewind `%rip` by one and record the breakpoint in `stopped`. -/
def restoreLoop (st : Inferior) (rip : Nat) : List Nat → Except RunError Inferior
  | [] => .ok st
  | bp :: rest =>
    if bp = rip - 1 then
      match st.orig_bytes bp with
      | none => .error .mapGetPanic
      | some orig =>
        match write_byte st.mem bp orig with
        | .error _ => .error .unwrapPanic
        | .ok (_, mem') =>
          .ok { st with
                mem := mem'
                regs := { st.regs with rip := st.regs.rip - 1 }
                stopped := some bp }
    else restoreLoop st rip rest

/-- Model of `cont` after the pending-breakpoint prologue: install every breakpoint
(aborting on the first failure), `ptrace::cont` (whose own error the
source discards with `let _ =`), wait, and if the process stopped at one
past a breakpoint, restore and rewind. -/
def contInstallAndRun (st : Inferior) (contEvent : WaitEvent) (breakpoints : List Nat) :
    ContOutcome :=
  match installLoop st.mem st.orig_bytes 0 breakpoints with
  | ((mem1, ob1), some (index, bp)) =>
    ⟨{ st with mem := mem1, orig_bytes := ob1 }, .error .nixErr,
      [.warnCannotInsert index bp]⟩
  | ((mem1, ob1), none) =>
    let st1 : Inferior := { st with mem := mem1, orig_bytes := ob1 }
    match waitOn st1 contEvent with
    | .error e => ⟨st1, .error e, []⟩
    | .ok (result, st2) =>
      match result with
      | .Stopped _ rip =>
        match restoreLoop st2 rip breakpoints with
        | .error e => ⟨st2, .error e, []⟩
        | .ok st3 => ⟨st3, .ok result, []⟩
      | _ => ⟨st2, .ok result, []⟩

/-- Model of `Inferior::cont(&mut self, breakpoints) -> Result<Status, nix::Error>`.
If `self.stopped` holds a pending just-hit breakpoint, single-step
(consuming `env.stepEvent`); on a SIGTRAP stop re-install 0xcc there —
discarding the byte `write_byte` returns, `.unwrap()` panicking on
failure — and clear `stopped`; on any other report return it at once.
Then run the install loop over all of `breakpoints`, resume and classify. -/
def cont (st : Inferior) (env : ContEnv) (breakpoints : List Nat) : ContOutcome :=
  match st.stopped with
  | none => contInstallAndRun st env.contEvent breakpoints
  | some breakpoint =>
    if env.stepOk then
      match waitOn st env.stepEvent with
      | .error e => ⟨st, .error e, []⟩
      | .ok (status, st1) =>
        match status with
        | .Stopped .SIGTRAP _ =>
          match write_byte st1.mem breakpoint 0xcc with
          | .error _ => ⟨st1, .error .unwrapPanic, []⟩
          | .ok (_, mem') =>
            contInstallAndRun { st1 with mem := mem', stopped := none }
              env.contEvent breakpoints
        | _ => ⟨st1, .ok status, []⟩
    else ⟨st, .error .nixErr, []⟩

/-- Modelled from the spec: the Symbol/Debug Information provider
(`DwarfData` of dwarf_data.rs, whose source is not among the given files).
Spec §6 specifies `address_to_function(addr) -> Option<String>` and
`address_to_line(addr) -> Option<SourceLine>` as pure lookups over a
static table that the core never mutates.  A source line is abstracted to
its displayed number. -/
structure DwarfData where
  get_function_from_addr : Nat → Option String
  get_line_from_addr : Nat → Option Nat

/-- The `loop` of `Inferior::print_backtrace`, with explicit fuel standing
in for the source's unbounded iteration: resolve the current `%rip` to a
function and a line (the source's `.unwrap()`s panic when a lookup
misses), emit the pair, stop after emitting `main`, otherwise follow the
frame-pointer chain — next `%rip` read at `rbp + 8`, next `%rbp` read at
`rbp`. -/
def backtraceLoop (dd : DwarfData) (mem : Mem) :
    Nat → Nat → Nat → Except RunError (List (String × Nat))
  | 0, _, _ => .error .fuelOut
  | fuel + 1, rip, rbp =>
    match dd.get_function_from_addr rip with
    | none => .error .unwrapPanic
    | some function =>
      match dd.get_line_from_addr rip with
      | none => .error .unwrapPanic
      | some line =>
        if function = "main" then .ok [(function, line)]
        else
          match ptraceRead mem (rbp + 8) with
          | .error e => .error e
          | .ok rip' =>
            match ptraceRead mem rbp with
            | .error e => .error e
            | .ok rbp' =>
              match backtraceLoop dd mem fuel rip' rbp' with
              | .error e => .error e
              | .ok rest => .ok ((function, line) :: rest)

/-- Model of `Inferior::print_backtrace`: read `%rip` and `%rbp` from the registers
and walk the frame chain; the result lists the (function, line) pairs
printed, innermost first.  It mutates nothing: memory and registers are
only read. -/
def print_backtrace (st : Inferior) (dd : DwarfData) (fuel : Nat) :
    Except RunError (List (String × Nat)) :=
  backtraceLoop dd st.mem fuel st.regs.rip st.regs.rbp

/-- The frame-pointer chain of a stopped process that reaches `main`: the
exact frames `print_backtrace` resolves starting from `rip`/`rbp`. -/
inductive FrameChain (dd : DwarfData) (mem : Mem) : Nat → Nat → List (String × Nat) → Prop where
  | main (rip rbp line : Nat) :
      dd.get_function_from_addr rip = some "main" →
      dd.get_line_from_addr rip = some line →
      FrameChain dd mem rip rbp [("main", line)]
  | step (rip rbp : Nat) (f : String) (line rip' rbp' : Nat)
      (rest : List (String × Nat)) :
      dd.get_function_from_addr rip = some f →
      dd.get_line_from_addr rip = some line →
      f ≠ "main" →
      ptraceRead mem (rbp + 8) = .ok rip' →
      ptraceRead mem rbp = .ok rbp' →
      FrameChain dd mem rip' rbp' rest →
      FrameChain dd mem rip rbp ((f, line) :: rest)

/-- Lifecycle of the traced OS process as far as `kill` can observe it:
still alive (running or trace-stopped), exited but not yet reaped, or
exited and already reaped by a previous `waitpid`. -/
inductive ProcState where
  | alive
  | zombie
  | reaped
deriving DecidableEq

/-- Models `std::process::Child::kill` as `Inferior::kill` reaches it.  This
`Child`'s own `wait` is never called (inferior.rs reaps via
`nix::sys::wait::waitpid`), so `Child::kill` always issues the `kill(2)`
syscall: delivering SIGKILL succeeds for a live process (which then dies)
and for a zombie, and fails with ESRCH once the process has been reaped. -/
def childKill : ProcState → Except RunError ProcState
  | .alive => .ok .zombie
  | .zombie => .ok .zombie
  | .reaped => .error .nixErr

/-- Models `waitpid` as `Inferior::wait` uses it inside `kill`: block until
the (dying or dead) process can be collected and reap it, failing with
ECHILD when it was already reaped. -/
def waitReap : ProcState → Except RunError ProcState
  | .alive => .ok .reaped
  | .zombie => .ok .reaped
  | .reaped => .error .nixErr

/-- Model of `Inferior::kill(mut self)`:
`self.child.kill().unwrap(); self.wait(None).unwrap()` — both `.unwrap()`s
panic on error. -/
def kill (p : ProcState) : Except RunError ProcState :=
  match childKill p with
  | .error _ => .error .unwrapPanic
  | .ok p1 =>
    match waitReap p1 with
    | .error _ => .error .unwrapPanic
    | .ok p2 => .ok p2

/-! Concrete states used by witnesses and counterexamples.  Addresses are
small; the word at aligned address 96 carries the byte 0x55 at offset 4,
i.e. at address 100. -/

/-- A memory with one mapped word, for the round-trip witness. -/
def memA : Mem := fun a => if a = 8 then some 0x1122334455667788 else none

/-- A memory with one mapped word, for the read-modify-write witness. -/
def memB : Mem := fun a => if a = 8 then some 0x8877665544332211 else none

/-- An inferior stopped on the just-hit breakpoint 100 whose original byte
0x55 was restored: `stopped = some 100`, `orig_bytes` maps 100 to 0x55,
memory holds the original 0x55 at address 100 (word 0x5500000000 at 96). -/
def infC1 : Inferior :=
  { stopped := some 100
    orig_bytes := fun a => if a = 100 then some 0x55 else none
    mem := fun a => if a = 96 then some 0x5500000000 else none
    regs := { rip := 100, rbp := 0 } }

/-- Environment for resuming `infC1`: the single-step traps (as it does when
the stepped instruction is ordinary), then the process runs to exit. -/
def envC1 : ContEnv :=
  { stepOk := true
    stepEvent := .stopped .SIGTRAP { rip := 101, rbp := 0 }
    contEvent := .exited 0 }

/-- A fresh (never-stopped) inferior with breakpoint byte 0x55 at 100. -/
def infC5 : Inferior :=
  { stopped := none
    orig_bytes := fun _ => none
    mem := fun a => if a = 96 then some 0x5500000000 else none
    regs := { rip := 50, rbp := 0 } }

/-- Environment where the resumed process stops with SIGSEGV — not a trap —
at `%rip = 101`, one past the breakpoint address 100. -/
def envC5 : ContEnv :=
  { stepOk := true
    stepEvent := .other
    contEvent := .stopped .SIGSEGV { rip := 101, rbp := 0 } }

/-- Like `infC5` but for the witness of the amended stop-handling claim. -/
def infW5 : Inferior :=
  { stopped := none
    orig_bytes := fun _ => none
    mem := fun a => if a = 96 then some 0x5500000000 else none
    regs := { rip := 50, rbp := 0 } }

/-- A trap stop at `%rip = 101` for the witness of the amended claim. -/
def envW5 : ContEnv :=
  { stepOk := true
    stepEvent := .other
    contEvent := .stopped .SIGTRAP { rip := 101, rbp := 0 } }

/-- State for the pending-step-over witness. -/
def infW4 : Inferior :=
  { stopped := some 100
    orig_bytes := fun a => if a = 100 then some 0x55 else none
    mem := fun a => if a = 96 then some 0x5500000000 else none
    regs := { rip := 100, rbp := 0 } }

/-- Environment for the pending-step-over witness: the step traps, then the
process exits. -/
def envW4 : ContEnv :=
  { stepOk := true
    stepEvent := .stopped .SIGTRAP { rip := 101, rbp := 0 }
    contEvent := .exited 0 }

/-- State for the failed-install witness: only the word at 0 is mapped, so
breakpoint 4 installs and breakpoint 200 fails. -/
def infC9 : Inferior :=
  { stopped := none
    orig_bytes := fun _ => none
    mem := fun a => if a = 0 then some 0x0011223344556677 else none
    regs := { rip := 0, rbp := 0 } }

/-- Environment for the failed-install witness (never consulted: the install
failure aborts `cont` before any wait). -/
def envC9 : ContEnv :=
  { stepOk := true, stepEvent := .other, contEvent := .other }

/-- A symbol table that resolves nothing. -/
def ddNone : DwarfData :=
  { get_function_from_addr := fun _ => none
    get_line_from_addr := fun _ => none }

/-- An inferior whose backtrace is attempted under `ddNone`. -/
def infC6 : Inferior :=
  { stopped := none
    orig_bytes := fun _ => none
    mem := fun _ => none
    regs := { rip := 1000, rbp := 2000 } }

/-- A two-frame symbol table: `foo` at 100, `main` at 300. -/
def ddC7 : DwarfData :=
  { get_function_from_addr := fun a =>
      if a = 300 then some "main" else if a = 100 then some "foo" else none
    get_line_from_addr := fun a =>
      if a = 300 then some 7 else if a = 100 then some 3 else none }

/-- Memory holding `foo`'s frame at rbp 200: return address 300 at 208,
caller frame base 400 at 200. -/
def memC7 : Mem := fun a => if a = 208 then some 300 else if a = 200 then some 400 else none

/-- An inferior stopped inside `foo`, two frames above `main`. -/
def infC7 : Inferior :=
  { stopped := none
    orig_bytes := fun _ => none
    mem := memC7
    regs := { rip := 100, rbp := 200 } }

/-- A number below `2 ^ n` has no set bit at position `n` or above. -/
theorem testBit_ge {v n r : Nat} (hv : v < 2 ^ n) (hr : n ≤ r) : v.testBit r = false := by
  apply Nat.testBit_lt_two_pow
  exact lt_of_lt_of_le hv (Nat.pow_le_pow_right (by norm_num) hr)

theorem align_addr_to_word_eq {addr : Nat} (h : addr < 2 ^ 64) :
    align_addr_to_word addr = 8 * (addr / 8) := by
  have hmask : (2 : Nat) ^ 64 - 8 = (2 ^ 61 - 1) <<< 3 := by
    rw [Nat.shiftLeft_eq]; norm_num
  have hdiv : 8 * (addr / 8) = (addr >>> 3) <<< 3 := by
    rw [Nat.shiftRight_eq_div_pow, Nat.shiftLeft_eq]
    norm_num [Nat.mul_comm]
  rw [align_addr_to_word, hmask, hdiv]
  apply Nat.eq_of_testBit_eq
  intro i
  rw [Nat.testBit_and, Nat.testBit_shiftLeft, Nat.testBit_shiftLeft,
    Nat.testBit_two_pow_sub_one, Nat.testBit_shiftRight]
  rcases lt_or_le i 3 with hi | hi
  · simp [Nat.not_le.mpr hi]
  · rcases lt_or_le i 64 with hi64 | hi64
    · have : 3 + (i - 3) = i := by omega
      simp [hi, this, show i - 3 < 61 by omega]
    · have h1 : addr.testBit i = false := testBit_ge h hi64
      have h2 : addr.testBit (3 + (i - 3)) = false := by
        have : 3 + (i - 3) = i := by omega
        rw [this, h1]
      simp [h1, h2, show ¬ i - 3 < 61 by omega]

theorem byte_offset_eq {addr : Nat} (h : addr < 2 ^ 64) :
    addr - align_addr_to_word addr = addr % 8 := by
  rw [align_addr_to_word_eq h]; omega

/-- Bit `i` of the patched word: inside byte `k` the bits come from `val`,
everywhere else (below bit 64) from `word`. -/
theorem patchWord_testBit (word k val i : Nat) (hk : k < 8) (hv : val < 256) :
    (patchWord word k val).testBit i =
      if 8 * k ≤ i ∧ i < 8 * k + 8 then val.testBit (i - 8 * k)
      else (word.testBit i && decide (i < 64)) := by
  have hff : (0xff : Nat) = 2 ^ 8 - 1 := by norm_num
  rw [patchWord, Nat.testBit_or, Nat.testBit_and, Nat.testBit_xor, hff,
    Nat.testBit_shiftLeft, Nat.testBit_shiftLeft, Nat.testBit_two_pow_sub_one,
    Nat.testBit_two_pow_sub_one]
  rcases lt_or_le i (8 * k) with hlo | hlo
  · -- below byte k
    have : ¬ (8 * k ≤ i ∧ i < 8 * k + 8) := by omega
    simp [this, Nat.not_le.mpr hlo, show i < 64 by omega]
  · rcases lt_or_le i (8 * k + 8) with hmid | hhi
    · -- inside byte k: mask bit is 0, val bit shows through
      simp [hlo, show i - 8 * k < 8 by omega, show i < 64 by omega,
        show 8 * k ≤ i ∧ i < 8 * k + 8 from ⟨hlo, hmid⟩]
    · -- above byte k: mask bit is 1 below 64, val contributes nothing
      have hvbit : val.testBit (i - 8 * k) = false :=
        testBit_ge (n := 8) (by omega) (by omega)
      have : ¬ (8 * k ≤ i ∧ i < 8 * k + 8) := by omega
      rcases lt_or_le i 64 with h64 | h64
      · simp [this, hlo, hvbit, show ¬ i - 8 * k < 8 by omega, h64]
        exact fun _ => hhi
      · simp [this, hlo, hvbit, show ¬ i - 8 * k < 8 by omega,
          show ¬ i < 64 by omega]

theorem shifted_byte_lt {val k : Nat} (hk : k < 8) (hv : val < 256) :
    val <<< (8 * k) < 2 ^ 64 := by
  rw [Nat.shiftLeft_eq]
  have h1 : (2 : Nat) ^ (8 * k) ≤ 2 ^ 56 := Nat.pow_le_pow_right (by norm_num) (by omega)
  have h2 : val * 2 ^ (8 * k) ≤ 255 * 2 ^ (8 * k) := Nat.mul_le_mul_right _ (by omega)
  have h3 : (2 : Nat) ^ 56 = 72057594037927936 := by norm_num
  omega

theorem patchWord_lt (word k val : Nat) (hk : k < 8) (hv : val < 256) :
    patchWord word k val < 2 ^ 64 := by
  apply Nat.or_lt_two_pow
  · apply Nat.and_lt_two_pow
    apply Nat.xor_lt_two_pow (by norm_num)
    exact shifted_byte_lt hk (by norm_num)
  · exact shifted_byte_lt hk hv

/-- Two numbers with equal bits throughout byte `j` have equal `j`-th bytes. -/
theorem wordByte_ext {x y : Nat} (j : Nat)
    (h : ∀ r, r < 8 → x.testBit (8 * j + r) = y.testBit (8 * j + r)) :
    wordByte x j = wordByte y j := by
  have key : ∀ z : Nat, z / 256 ^ j % 256 = (z >>> (8 * j)) % 2 ^ 8 := by
    intro z
    rw [Nat.shiftRight_eq_div_pow]
    norm_num [Nat.pow_mul]
  rw [wordByte, wordByte, key, key]
  apply Nat.eq_of_testBit_eq
  intro i
  rw [Nat.testBit_mod_two_pow, Nat.testBit_mod_two_pow,
    Nat.testBit_shiftRight, Nat.testBit_shiftRight]
  rcases lt_or_le i 8 with hi | hi
  · simp [hi, h i hi]
  · simp [Nat.not_lt.mpr hi]

/-- The extracted `orig_byte` of `write_byte` is byte `k` of the word. -/
theorem orig_byte_eq (w k : Nat) : (w >>> (8 * k)) &&& 0xff = wordByte w k := by
  have hff : (0xff : Nat) = 2 ^ 8 - 1 := by norm_num
  rw [hff, Nat.and_pow_two_sub_one_eq_mod, wordByte,
    Nat.shiftRight_eq_div_pow]
  norm_num [Nat.pow_mul]

theorem wordByte_lt (w k : Nat) : wordByte w k < 256 := by
  exact Nat.mod_lt _ (by norm_num)

/-- Bit `r` of byte `j` of `w` is bit `8*j + r` of `w`. -/
theorem wordByte_testBit (w j r : Nat) (hr : r < 8) :
    (wordByte w j).testBit r = w.testBit (8 * j + r) := by
  have key : wordByte w j = (w >>> (8 * j)) % 2 ^ 8 := by
    rw [wordByte, Nat.shiftRight_eq_div_pow]
    norm_num [Nat.pow_mul]
  rw [key, Nat.testBit_mod_two_pow, Nat.testBit_shiftRight]
  simp [hr]

/-- A byte of `x` equals `v` once their bits agree. -/
theorem wordByte_eq_of_testBit {x : Nat} (j v : Nat) (hv : v < 256)
    (h : ∀ r, r < 8 → x.testBit (8 * j + r) = v.testBit r) : wordByte x j = v := by
  have key : wordByte x j = (x >>> (8 * j)) % 2 ^ 8 := by
    rw [wordByte, Nat.shiftRight_eq_div_pow]
    norm_num [Nat.pow_mul]
  rw [key]
  apply Nat.eq_of_testBit_eq
  intro i
  rw [Nat.testBit_mod_two_pow, Nat.testBit_shiftRight]
  rcases lt_or_le i 8 with hi | hi
  · simp [hi, h i hi]
  · have h1 : v.testBit i = false := testBit_ge (n := 8) (by omega) hi
    simp [Nat.not_lt.mpr hi, h1]

/-- Unfolding `write_byte` on a mapped address. -/
theorem write_byte_eq_of_mapped {mem : Mem} {addr w : Nat}
    (hm : mem (align_addr_to_word addr) = some w) (val : Nat) :
    write_byte mem addr val =
      .ok ((w >>> (8 * (addr - align_addr_to_word addr))) &&& 0xff,
        fun a => if a = align_addr_to_word addr
          then some (patchWord w (addr - align_addr_to_word addr) val)
          else mem a) := by
  rw [write_byte, ptraceRead, hm]
  simp only [ptraceWrite, hm, patchWord]

/-- C3: `write_byte(addr, v)` performs an aligned word read-modify-write —
it aligns `addr` down to the host word size, reads the containing word,
replaces only the byte at `addr`'s offset within that word, and writes the
word back — so every byte of the containing word other than the one at
`addr` is unchanged (as is every other word of memory), and the returned
value is the previous value of the byte at `addr`. -/
theorem write_byte_rmw (mem : Mem) (addr v w : Nat)
    (ha : addr < 2 ^ 64) (hv : v < 256)
    (hm : mem (align_addr_to_word addr) = some w) (_hw : w < 2 ^ 64) :
    ∃ u mem',
      write_byte mem addr v = .ok (wordByte w (addr % 8), mem') ∧
      align_addr_to_word addr = 8 * (addr / 8) ∧
      mem' (align_addr_to_word addr) = some u ∧
      (∀ j, j < 8 → j ≠ addr % 8 → wordByte u j = wordByte w j) ∧
      wordByte u (addr % 8) = v ∧
      (∀ a, a ≠ align_addr_to_word addr → mem' a = mem a) := by
  have hoff : addr - align_addr_to_word addr = addr % 8 := byte_offset_eq ha
  have hk : addr % 8 < 8 := Nat.mod_lt _ (by norm_num)
  refine ⟨patchWord w (addr % 8) v,
    fun a => if a = align_addr_to_word addr
      then some (patchWord w (addr % 8) v) else mem a,
    ?_, align_addr_to_word_eq ha, ?_, ?_, ?_, ?_⟩
  · rw [write_byte_eq_of_mapped hm v]
    simp only [hoff, orig_byte_eq]
  · simp
  · intro j hj hjk
    apply wordByte_ext
    intro r hr
    rw [patchWord_testBit _ _ _ _ hk hv]
    have hnot : ¬ (8 * (addr % 8) ≤ 8 * j + r ∧ 8 * j + r < 8 * (addr % 8) + 8) := by
      omega
    simp [hnot, show 8 * j + r < 64 by omega]
  · apply wordByte_eq_of_testBit _ _ hv
    intro r hr
    rw [patchWord_testBit _ _ _ _ hk hv]
    have hin : 8 * (addr % 8) ≤ 8 * (addr % 8) + r ∧
        8 * (addr % 8) + r < 8 * (addr % 8) + 8 := ⟨by omega, by omega⟩
    simp [hin]
  · intro a hne
    simp [hne]

/-- C3 witness: the read-modify-write contract evaluated at the misaligned
address 12 of the one-word memory `memB`. -/
theorem write_byte_rmw_witness :
    (12 : Nat) < 2 ^ 64 ∧ (0xab : Nat) < 256 ∧
    memB (align_addr_to_word 12) = some 0x8877665544332211 ∧
    (∃ u mem',
      write_byte memB 12 0xab = .ok (wordByte 0x8877665544332211 (12 % 8), mem') ∧
      align_addr_to_word 12 = 8 * (12 / 8) ∧
      mem' (align_addr_to_word 12) = some u ∧
      (∀ j, j < 8 → j ≠ 12 % 8 → wordByte u j = wordByte 0x8877665544332211 j) ∧
      wordByte u (12 % 8) = 0xab ∧
      (∀ a, a ≠ align_addr_to_word 12 → mem' a = memB a)) :=
  ⟨by decide, by decide, by decide,
    write_byte_rmw memB 12 0xab 0x8877665544332211
      (by decide) (by decide) (by decide) (by decide)⟩

/-- C2: for a mapped address (aligned or not), `write_byte(addr, 0xCC)`
followed by `write_byte(addr, b)` with `b` the byte returned by the first
call leaves the containing word — indeed all of memory — bit-for-bit as it
was before the first call. -/
theorem write_byte_roundtrip (mem : Mem) (addr w : Nat)
    (ha : addr < 2 ^ 64)
    (hm : mem (align_addr_to_word addr) = some w) (hw : w < 2 ^ 64) :
    ∃ b mem1 b2 mem2,
      write_byte mem addr 0xcc = .ok (b, mem1) ∧
      write_byte mem1 addr b = .ok (b2, mem2) ∧
      mem2 (align_addr_to_word addr) = mem (align_addr_to_word addr) ∧
      (∀ a, mem2 a = mem a) := by
  have hoff : addr - align_addr_to_word addr = addr % 8 := byte_offset_eq ha
  have hk : addr % 8 < 8 := Nat.mod_lt _ (by norm_num)
  have hb : wordByte w (addr % 8) < 256 := wordByte_lt w (addr % 8)
  have hrestore :
      patchWord (patchWord w (addr % 8) 0xcc) (addr % 8) (wordByte w (addr % 8)) = w := by
    apply Nat.eq_of_testBit_eq
    intro i
    rw [patchWord_testBit _ _ _ _ hk hb]
    by_cases hin : 8 * (addr % 8) ≤ i ∧ i < 8 * (addr % 8) + 8
    · rw [if_pos hin, wordByte_testBit w (addr % 8) (i - 8 * (addr % 8)) (by omega)]
      congr 1
      omega
    · rw [if_neg hin, patchWord_testBit _ _ _ _ hk (by norm_num), if_neg hin]
      rcases lt_or_le i 64 with h64 | h64
      · simp [h64]
      · simp [show ¬ i < 64 by omega, testBit_ge hw h64]
  refine ⟨wordByte w (addr % 8),
    fun a => if a = align_addr_to_word addr
      then some (patchWord w (addr % 8) 0xcc) else mem a,
    wordByte (patchWord w (addr % 8) 0xcc) (addr % 8),
    fun a => if a = align_addr_to_word addr
      then some (patchWord (patchWord w (addr % 8) 0xcc) (addr % 8) (wordByte w (addr % 8)))
      else if a = align_addr_to_word addr
      then some (patchWord w (addr % 8) 0xcc) else mem a,
    ?_, ?_, ?_, ?_⟩
  · rw [write_byte_eq_of_mapped hm 0xcc]
    simp only [hoff, orig_byte_eq]
  · have hm1 : (fun a => if a = align_addr_to_word addr
        then some (patchWord w (addr % 8) 0xcc) else mem a)
        (align_addr_to_word addr) = some (patchWord w (addr % 8) 0xcc) := by simp
    rw [write_byte_eq_of_mapped hm1 (wordByte w (addr % 8))]
    simp only [hoff, orig_byte_eq]
  · simp [hrestore, hm]
  · intro a
    by_cases hne : a = align_addr_to_word addr
    · subst hne
      simp [hrestore, hm]
    · simp [hne]

/-- C2 witness: the round trip evaluated at the misaligned address 12 of the
one-word memory `memA`. -/
theorem write_byte_roundtrip_witness :
    (12 : Nat) < 2 ^ 64 ∧
    memA (align_addr_to_word 12) = some 0x1122334455667788 ∧
    (∃ b mem1 b2 mem2,
      write_byte memA 12 0xcc = .ok (b, mem1) ∧
      write_byte mem1 12 b = .ok (b2, mem2) ∧
      mem2 (align_addr_to_word 12) = memA (align_addr_to_word 12) ∧
      (∀ a, mem2 a = memA a)) :=
  ⟨by decide, by decide,
    write_byte_roundtrip memA 12 0x1122334455667788 (by decide) (by decide) (by decide)⟩

/-- C1 (code bug): resuming `infC1` — an inferior stopped on the just-hit
breakpoint 100 whose saved original byte is 0x55 — ends with the saved
byte overwritten by the trap opcode 0xCC: the pending prologue re-installs
0xCC at 100, and the install loop, which does not skip the pending
address, re-reads that 0xCC and records it as the "original" byte. -/
theorem cont_overwrites_saved_original :
    infC1.orig_bytes 100 = some 0x55 ∧
    (cont infC1 envC1 [100]).inf.orig_bytes 100 = some 0xcc :=
  ⟨by decide, by decide⟩

/-- C5 counterexample: the post-wait restore fires on a SIGSEGV stop, not
only on trap stops — the source matches `Status::Stopped(_, rip)` with a
wildcard signal.  After `cont infC5 envC5 [100]` stops with SIGSEGV at
`%rip = 101`, breakpoint 100's byte is restored (the word at 96 is back to
0x5500000000 although the install loop had patched it to 0xCC), `%rip` is
rewound to 100 and 100 is recorded as pending. -/
theorem cont_restores_on_sigsegv_stop :
    envC5.contEvent = .stopped .SIGSEGV { rip := 101, rbp := 0 } ∧
    Signal.SIGSEGV ≠ Signal.SIGTRAP ∧
    (cont infC5 envC5 [100]).inf.stopped = some 100 ∧
    (cont infC5 envC5 [100]).inf.regs.rip = 100 ∧
    (cont infC5 envC5 [100]).inf.mem 96 = some 0x5500000000 :=
  ⟨rfl, by decide, by decide, by decide, by decide⟩

/-- C6 counterexample: when the function lookup misses, `print_backtrace`
panics (the `.unwrap()` on `None`); it does not return a
symbol-resolution error value. -/
theorem print_backtrace_miss_panics_concrete :
    print_backtrace infC6 ddNone 10 = .error .unwrapPanic := rfl

/-- C8 counterexample: `kill` on an already-reaped process panics — the
`kill(2)` syscall fails with ESRCH and `.unwrap()` aborts. -/
theorem kill_reaped_panics : kill .reaped = .error .unwrapPanic := rfl

/-- C8 (amended): `kill` neither panics nor blocks when the process is
alive or has exited without being reaped; it terminates and reaps the
process, leaving no zombie. -/
theorem kill_safe_alive_or_zombie :
    kill .alive = .ok .reaped ∧ kill .zombie = .ok .reaped :=
  ⟨rfl, rfl⟩

/-- A key already present in `orig_bytes` survives any install run. -/
theorem installLoop_preserves (bps : List Nat) :
    ∀ (mem : Mem) (ob : Nat → Option Nat) (i x : Nat), (ob x).isSome →
      ((installLoop mem ob i bps).1.2 x).isSome := by
  induction bps with
  | nil => intro mem ob i x hx; simpa [installLoop] using hx
  | cons bp rest ih =>
    intro mem ob i x hx
    simp only [installLoop]
    cases hwb : write_byte mem bp 0xcc with
    | error e => simpa [hwb] using hx
    | ok p =>
      obtain ⟨o, mem'⟩ := p
      simp only [hwb]
      apply ih
      by_cases hxbp : x = bp
      · subst hxbp; simp [insertMap]
      · simpa [insertMap, hxbp] using hx

/-- When the install loop completes, every listed breakpoint address has a
recorded original byte. -/
theorem installLoop_isSome (bps : List Nat) :
    ∀ (mem : Mem) (ob : Nat → Option Nat) (i : Nat),
      (installLoop mem ob i bps).2 = none →
      ∀ x ∈ bps, ((installLoop mem ob i bps).1.2 x).isSome := by
  induction bps with
  | nil => intro mem ob i _ x hx; simp at hx
  | cons bp rest ih =>
    intro mem ob i hnone x hx
    simp only [installLoop] at hnone ⊢
    cases hwb : write_byte mem bp 0xcc with
    | error e => rw [hwb] at hnone; simp at hnone
    | ok p =>
      obtain ⟨o, mem'⟩ := p
      rw [hwb] at hnone
      simp only [hwb]
      rcases List.mem_cons.mp hx with hxbp | hxrest
      · subst hxbp
        apply installLoop_preserves
        simp [insertMap]
      · exact ih mem' _ _ hnone x hxrest

/-- The restore loop can only fail by a failed restore write, never by the
map lookup, once every listed address has a recorded byte. -/
theorem restoreLoop_ne_mapGetPanic (bps : List Nat) (st : Inferior) (rip : Nat)
    (h : ∀ x ∈ bps, (st.orig_bytes x).isSome) :
    restoreLoop st rip bps ≠ .error .mapGetPanic := by
  induction bps with
  | nil => simp [restoreLoop]
  | cons bp rest ih =>
    simp only [restoreLoop]
    by_cases hbp : bp = rip - 1
    · rw [if_pos hbp]
      have hsome := h bp (by simp)
      cases horig : st.orig_bytes bp with
      | none => rw [horig] at hsome; simp at hsome
      | some orig =>
        simp only [horig]
        cases hwb : write_byte st.mem bp orig with
        | error e => simp [hwb]
        | ok p =>
          obtain ⟨b2, mem2⟩ := p
          simp [hwb]
    · rw [if_neg hbp]
      exact ih (fun x hx => h x (by simp [hx]))

/-- The function `contInstallAndRun` never reaches the map-lookup panic: the restore
loop only runs after the install loop recorded every breakpoint. -/
theorem contInstallAndRun_ne_mapGetPanic (st : Inferior) (ev : WaitEvent) (bps : List Nat) :
    (contInstallAndRun st ev bps).res ≠ .error .mapGetPanic := by
  rcases hil : installLoop st.mem st.orig_bytes 0 bps with ⟨⟨mem1, ob1⟩, flag⟩
  cases flag with
  | some p =>
    obtain ⟨idx, bp⟩ := p
    simp [contInstallAndRun, hil]
  | none =>
    have hins : ∀ x ∈ bps, (ob1 x).isSome := by
      have h1 := installLoop_isSome bps st.mem st.orig_bytes 0 (by rw [hil])
      rw [hil] at h1
      exact h1
    cases ev with
    | exited c => simp [contInstallAndRun, hil, waitOn]
    | signaled s => simp [contInstallAndRun, hil, waitOn]
    | other => simp [contInstallAndRun, hil, waitOn]
    | stopped s regs =>
      simp only [contInstallAndRun, hil, waitOn]
      cases hres : restoreLoop
          { st with mem := mem1, orig_bytes := ob1, regs := regs } regs.rip bps with
      | error e =>
        have hne : e ≠ .mapGetPanic := by
          intro he
          subst he
          exact restoreLoop_ne_mapGetPanic bps _ regs.rip (by simpa using hins) hres
        simp [hres, hne]
      | ok st3 => simp [hres]

/-- C10: the restore path's `orig_bytes.get(..).unwrap()` can never find the
map entry missing: every address it compares against the stopped program
counter comes from the breakpoint list, all of whose elements the install
loop inserted earlier in the same call, so `cont` never produces the
map-lookup panic. -/
theorem cont_ne_mapGetPanic (st : Inferior) (env : ContEnv) (bps : List Nat) :
    (cont st env bps).res ≠ .error .mapGetPanic := by
  cases hstop : st.stopped with
  | none =>
    simpa [cont, hstop] using contInstallAndRun_ne_mapGetPanic st env.contEvent bps
  | some bp =>
    cases hok : env.stepOk with
    | false => simp [cont, hstop, hok]
    | true =>
      cases hev : env.stepEvent with
      | exited c => simp [cont, hstop, hok, hev, waitOn]
      | signaled s => simp [cont, hstop, hok, hev, waitOn]
      | other => simp [cont, hstop, hok, hev, waitOn]
      | stopped s regs =>
        cases s with
        | SIGTRAP =>
          simp only [cont, hstop, hok, hev, waitOn, if_true]
          cases hwb : write_byte st.mem bp 0xcc with
          | error e => simp [hwb]
          | ok p =>
            obtain ⟨b, mem'⟩ := p
            simp only [hwb]
            exact contInstallAndRun_ne_mapGetPanic _ env.contEvent bps
        | SIGSEGV => simp [cont, hstop, hok, hev, waitOn]
        | SIGINT => simp [cont, hstop, hok, hev, waitOn]
        | SIGKILL => simp [cont, hstop, hok, hev, waitOn]

/-- C4: when `cont` starts with a pending step-over address, it first
single-steps exactly one instruction; if the step's wait reports a SIGTRAP
stop it re-installs the trap byte at that same address and clears the
pending marker before proceeding to the install loop; if the step's wait
reports anything other than a trap stop, that status is returned at once
and no breakpoint installation happens in that call (the returned state
keeps `mem` and `orig_bytes` untouched). -/
theorem cont_pending_step_over (st : Inferior) (env : ContEnv) (bps : List Nat) (bp : Nat)
    (hstop : st.stopped = some bp) (hok : env.stepOk = true) :
    (∀ regs b mem', env.stepEvent = .stopped .SIGTRAP regs →
      write_byte st.mem bp 0xcc = .ok (b, mem') →
      cont st env bps =
        contInstallAndRun { st with regs := regs, mem := mem', stopped := none }
          env.contEvent bps) ∧
    (∀ c, env.stepEvent = .exited c →
      cont st env bps = ⟨st, .ok (.Exited c), []⟩) ∧
    (∀ s, env.stepEvent = .signaled s →
      cont st env bps = ⟨st, .ok (.Signaled s), []⟩) ∧
    (∀ s regs, env.stepEvent = .stopped s regs → s ≠ .SIGTRAP →
      cont st env bps = ⟨{ st with regs := regs }, .ok (.Stopped s regs.rip), []⟩) := by
  refine ⟨?_, ?_, ?_, ?_⟩
  · intro regs b mem' hev hwb
    simp [cont, hstop, hok, hev, waitOn, hwb]
  · intro c hev
    simp [cont, hstop, hok, hev, waitOn]
  · intro s hev
    simp [cont, hstop, hok, hev, waitOn]
  · intro s regs hev hs
    cases s with
    | SIGTRAP => exact absurd rfl hs
    | SIGSEGV => simp [cont, hstop, hok, hev, waitOn]
    | SIGINT => simp [cont, hstop, hok, hev, waitOn]
    | SIGKILL => simp [cont, hstop, hok, hev, waitOn]

/-- C4 witness: the step-over contract evaluated on `infW4`/`envW4`. -/
theorem cont_pending_step_over_witness :
    infW4.stopped = some 100 ∧ envW4.stepOk = true ∧
    ((∀ regs b mem', envW4.stepEvent = .stopped .SIGTRAP regs →
      write_byte infW4.mem 100 0xcc = .ok (b, mem') →
      cont infW4 envW4 [100] =
        contInstallAndRun { infW4 with regs := regs, mem := mem', stopped := none }
          envW4.contEvent [100]) ∧
    (∀ c, envW4.stepEvent = .exited c →
      cont infW4 envW4 [100] = ⟨infW4, .ok (.Exited c), []⟩) ∧
    (∀ s, envW4.stepEvent = .signaled s →
      cont infW4 envW4 [100] = ⟨infW4, .ok (.Signaled s), []⟩) ∧
    (∀ s regs, envW4.stepEvent = .stopped s regs → s ≠ .SIGTRAP →
      cont infW4 envW4 [100] =
        ⟨{ infW4 with regs := regs }, .ok (.Stopped s regs.rip), []⟩)) :=
  ⟨rfl, rfl, cont_pending_step_over infW4 envW4 [100] 100 rfl rfl⟩

/-- Appending a failing breakpoint: when installing `l1` succeeds and the
word containing `bp` is unmapped afterwards, the loop over
`l1 ++ bp :: l2` stops at `bp` with index `i + l1.length`, keeping `l1`'s
installs. -/
theorem installLoop_fail_at (l1 : List Nat) :
    ∀ (mem : Mem) (ob : Nat → Option Nat) (i bp : Nat) (l2 : List Nat),
      (installLoop mem ob i l1).2 = none →
      (installLoop mem ob i l1).1.1 (align_addr_to_word bp) = none →
      installLoop mem ob i (l1 ++ bp :: l2) =
        ((installLoop mem ob i l1).1, some (i + l1.length, bp)) := by
  induction l1 with
  | nil =>
    intro mem ob i bp l2 _ hfail
    simp only [installLoop, List.nil_append, List.length_nil] at hfail ⊢
    have hwb : write_byte mem bp 0xcc = .error .nixErr := by
      simp only [write_byte, ptraceRead, hfail]
    simp [installLoop, hwb]
  | cons x l1 ih =>
    intro mem ob i bp l2 hpre hfail
    simp only [installLoop, List.cons_append, List.length_cons] at hpre hfail ⊢
    cases hwb : write_byte mem x 0xcc with
    | error e => rw [hwb] at hpre; simp at hpre
    | ok p =>
      obtain ⟨o, mem'⟩ := p
      simp only [hwb] at hpre hfail
      simp only [hwb]
      have harith : i + 1 + l1.length = i + (l1.length + 1) := by omega
      show installLoop mem' (insertMap ob x o) (i + 1) (l1 ++ bp :: l2) =
        ((installLoop mem' (insertMap ob x o) (i + 1) l1).1, some (i + (l1.length + 1), bp))
      rw [ih mem' _ _ bp l2 hpre hfail, harith]

/-- C9: if installing the trap byte for some breakpoint fails because its
address is not accessible, the whole `cont` call aborts with the
memory-access error, the printed warning names the failing breakpoint's
index and address, and the breakpoints installed earlier in that round are
left installed — the final state keeps the loop's partial memory and map
unchanged (no rollback), and every earlier breakpoint has a recorded
original byte. -/
theorem cont_install_failure (st : Inferior) (env : ContEnv) (l1 l2 : List Nat) (bp : Nat)
    (hstop : st.stopped = none)
    (hpre : (installLoop st.mem st.orig_bytes 0 l1).2 = none)
    (hfail : (installLoop st.mem st.orig_bytes 0 l1).1.1 (align_addr_to_word bp) = none) :
    cont st env (l1 ++ bp :: l2) =
      ⟨{ st with
          mem := (installLoop st.mem st.orig_bytes 0 l1).1.1
          orig_bytes := (installLoop st.mem st.orig_bytes 0 l1).1.2 },
        .error .nixErr, [.warnCannotInsert l1.length bp]⟩ ∧
    ∀ x ∈ l1, ((installLoop st.mem st.orig_bytes 0 l1).1.2 x).isSome := by
  have hins := installLoop_isSome l1 st.mem st.orig_bytes 0 hpre
  have happ := installLoop_fail_at l1 st.mem st.orig_bytes 0 bp l2 hpre hfail
  refine ⟨?_, hins⟩
  rcases hil : installLoop st.mem st.orig_bytes 0 l1 with ⟨⟨mem1, ob1⟩, flag⟩
  rw [hil] at happ
  simp [cont, hstop, contInstallAndRun, happ, hil]

/-- C9 witness: breakpoint 4 installs into `infC9`'s one mapped word, then
breakpoint 200 fails, aborting the call with the index-1 warning. -/
theorem cont_install_failure_witness :
    infC9.stopped = none ∧
    (installLoop infC9.mem infC9.orig_bytes 0 [4]).2 = none ∧
    (installLoop infC9.mem infC9.orig_bytes 0 [4]).1.1 (align_addr_to_word 200) = none ∧
    (cont infC9 envC9 ([4] ++ 200 :: []) =
      ⟨{ infC9 with
          mem := (installLoop infC9.mem infC9.orig_bytes 0 [4]).1.1
          orig_bytes := (installLoop infC9.mem infC9.orig_bytes 0 [4]).1.2 },
        .error .nixErr, [.warnCannotInsert (List.length [4]) 200]⟩ ∧
    ∀ x ∈ [4], ((installLoop infC9.mem infC9.orig_bytes 0 [4]).1.2 x).isSome) :=
  ⟨rfl, by decide, by decide,
    cont_install_failure infC9 envC9 [4] [] 200 rfl (by decide) (by decide)⟩

/-- The restore loop ignores a prefix of non-matching breakpoints. -/
theorem restoreLoop_skip (l1 rest : List Nat) (st : Inferior) (rip : Nat) :
    (∀ x ∈ l1, x ≠ rip - 1) →
    restoreLoop st rip (l1 ++ rest) = restoreLoop st rip rest := by
  induction l1 with
  | nil => intro _; rfl
  | cons x l1 ih =>
    intro h1
    have hx : x ≠ rip - 1 := h1 x (by simp)
    have hstep : restoreLoop st rip ((x :: l1) ++ rest) = restoreLoop st rip (l1 ++ rest) := by
      show restoreLoop st rip (x :: (l1 ++ rest)) = restoreLoop st rip (l1 ++ rest)
      simp only [restoreLoop, if_neg hx]
    rw [hstep, ih (fun y hy => h1 y (by simp [hy]))]

/-- When no breakpoint matches `rip - 1`, the restore loop does nothing. -/
theorem restoreLoop_none (bps : List Nat) (st : Inferior) (rip : Nat)
    (h : ∀ x ∈ bps, x ≠ rip - 1) :
    restoreLoop st rip bps = .ok st := by
  have h2 := restoreLoop_skip bps [] st rip h
  rw [List.append_nil] at h2
  rw [h2]
  rfl

/-- The restore loop at a matching breakpoint: skip the non-matching prefix,
then restore the recorded byte, rewind `%rip` and record the pending
marker. -/
theorem restoreLoop_hit (st : Inferior) (rip : Nat) (l1 l2 : List Nat) (bp orig w : Nat)
    (hl1 : ∀ x ∈ l1, x ≠ rip - 1)
    (hbp : bp = rip - 1)
    (hget : st.orig_bytes bp = some orig)
    (hw : st.mem (align_addr_to_word bp) = some w) :
    restoreLoop st rip (l1 ++ bp :: l2) =
      .ok { st with
            mem := fun a => if a = align_addr_to_word bp
              then some (patchWord w (bp - align_addr_to_word bp) orig)
              else st.mem a
            regs := { st.regs with rip := st.regs.rip - 1 }
            stopped := some bp } := by
  rw [restoreLoop_skip l1 (bp :: l2) st rip hl1]
  simp only [restoreLoop, if_pos hbp, hget, write_byte_eq_of_mapped hw orig]

/-- C5 (amended): after the resumed process stops — with ANY signal, not
only SIGTRAP: the source matches `Status::Stopped(_, rip)` with a wildcard
signal — `cont` performs the breakpoint-hit handling exactly when the
reported program counter minus one matches a registered breakpoint: at the
first matching breakpoint it writes the saved original byte back,
decrements the instruction pointer by exactly one and records that address
as the pending marker; when no breakpoint matches, nothing is restored and
no pending marker is recorded. -/
theorem cont_stop_restore (st : Inferior) (env : ContEnv) (bps : List Nat)
    (s : Signal) (regs : Regs)
    (hstop : st.stopped = none)
    (hinst : (installLoop st.mem st.orig_bytes 0 bps).2 = none)
    (hev : env.contEvent = .stopped s regs) :
    (∀ l1 bp l2 orig w,
      bps = l1 ++ bp :: l2 →
      (∀ x ∈ l1, x ≠ regs.rip - 1) →
      bp = regs.rip - 1 →
      (installLoop st.mem st.orig_bytes 0 bps).1.2 bp = some orig →
      (installLoop st.mem st.orig_bytes 0 bps).1.1 (align_addr_to_word bp) = some w →
      cont st env bps =
        ⟨{ stopped := some bp
           orig_bytes := (installLoop st.mem st.orig_bytes 0 bps).1.2
           mem := fun a => if a = align_addr_to_word bp
             then some (patchWord w (bp - align_addr_to_word bp) orig)
             else (installLoop st.mem st.orig_bytes 0 bps).1.1 a
           regs := { regs with rip := regs.rip - 1 } },
          .ok (.Stopped s regs.rip), []⟩) ∧
    ((∀ x ∈ bps, x ≠ regs.rip - 1) →
      cont st env bps =
        ⟨{ st with
            mem := (installLoop st.mem st.orig_bytes 0 bps).1.1
            orig_bytes := (installLoop st.mem st.orig_bytes 0 bps).1.2
            regs := regs },
          .ok (.Stopped s regs.rip), []⟩) := by
  rcases hil : installLoop st.mem st.orig_bytes 0 bps with ⟨⟨mem1, ob1⟩, flag⟩
  rw [hil] at hinst
  cases flag with
  | some p => simp at hinst
  | none =>
    constructor
    · intro l1 bp l2 orig w hbps hl1 hbp hget hw
      have hres := restoreLoop_hit ⟨none, ob1, mem1, regs⟩
        regs.rip l1 l2 bp orig w hl1 hbp (by simpa using hget) (by simpa using hw)
      subst hbps
      simp only [cont, hstop, contInstallAndRun, hil, hev, waitOn, hres]
    · intro hnone
      have hres := restoreLoop_none bps ⟨none, ob1, mem1, regs⟩ regs.rip hnone
      simp only [cont, hstop, contInstallAndRun, hil, hev, waitOn, hres]

/-- C5 witness for the amended claim: the trap stop at `%rip = 101` restores
breakpoint 100 of `infW5`. -/
theorem cont_stop_restore_witness :
    infW5.stopped = none ∧
    (installLoop infW5.mem infW5.orig_bytes 0 [100]).2 = none ∧
    envW5.contEvent = .stopped .SIGTRAP { rip := 101, rbp := 0 } ∧
    ((∀ l1 bp l2 orig w,
      ([100] : List Nat) = l1 ++ bp :: l2 →
      (∀ x ∈ l1, x ≠ (Regs.mk 101 0).rip - 1) →
      bp = (Regs.mk 101 0).rip - 1 →
      (installLoop infW5.mem infW5.orig_bytes 0 [100]).1.2 bp = some orig →
      (installLoop infW5.mem infW5.orig_bytes 0 [100]).1.1 (align_addr_to_word bp) = some w →
      cont infW5 envW5 [100] =
        ⟨{ stopped := some bp
           orig_bytes := (installLoop infW5.mem infW5.orig_bytes 0 [100]).1.2
           mem := fun a => if a = align_addr_to_word bp
             then some (patchWord w (bp - align_addr_to_word bp) orig)
             else (installLoop infW5.mem infW5.orig_bytes 0 [100]).1.1 a
           regs := { Regs.mk 101 0 with rip := (Regs.mk 101 0).rip - 1 } },
          .ok (.Stopped .SIGTRAP (Regs.mk 101 0).rip), []⟩) ∧
    ((∀ x ∈ ([100] : List Nat), x ≠ (Regs.mk 101 0).rip - 1) →
      cont infW5 envW5 [100] =
        ⟨{ infW5 with
            mem := (installLoop infW5.mem infW5.orig_bytes 0 [100]).1.1
            orig_bytes := (installLoop infW5.mem infW5.orig_bytes 0 [100]).1.2
            regs := Regs.mk 101 0 },
          .ok (.Stopped .SIGTRAP (Regs.mk 101 0).rip), []⟩)) :=
  ⟨rfl, by decide, rfl,
    cont_stop_restore infW5 envW5 [100] .SIGTRAP (Regs.mk 101 0) rfl (by decide) rfl⟩

/-- C6 (amended): when either symbol lookup misses for the current frame,
`print_backtrace`'s loop aborts by panicking — the `.unwrap()` on `None` —
rather than returning a symbol-resolution error value; no pair is emitted
for that frame, and process state is untouched (the walk only reads). -/
theorem backtrace_lookup_miss_panics (dd : DwarfData) (mem : Mem) (fuel rip rbp : Nat)
    (hfuel : 0 < fuel)
    (hmiss : dd.get_function_from_addr rip = none ∨ dd.get_line_from_addr rip = none) :
    backtraceLoop dd mem fuel rip rbp = .error .unwrapPanic := by
  cases fuel with
  | zero => omega
  | succ n =>
    rcases hmiss with h | h
    · simp [backtraceLoop, h]
    · cases hf : dd.get_function_from_addr rip with
      | none => simp [backtraceLoop, hf]
      | some f => simp [backtraceLoop, hf, h]

/-- C6 witness for the amended claim: the all-miss table panics at once. -/
theorem backtrace_lookup_miss_panics_witness :
    0 < 5 ∧
    (ddNone.get_function_from_addr 0 = none ∨ ddNone.get_line_from_addr 0 = none) ∧
    backtraceLoop ddNone (fun _ => none) 5 0 0 = .error .unwrapPanic :=
  ⟨by decide, Or.inl rfl,
    backtrace_lookup_miss_panics ddNone (fun _ => none) 5 0 0 (by decide) (Or.inl rfl)⟩

/-- With enough fuel, the walk of a frame chain that reaches `main` returns
exactly the chain's frames. -/
theorem backtraceLoop_chain (dd : DwarfData) (mem : Mem) {rip rbp : Nat}
    {frames : List (String × Nat)}
    (hchain : FrameChain dd mem rip rbp frames) :
    ∀ fuel, frames.length ≤ fuel → backtraceLoop dd mem fuel rip rbp = .ok frames := by
  induction hchain with
  | main rip rbp line hf hl =>
    intro fuel hfuel
    cases fuel with
    | zero => simp at hfuel
    | succ n => simp [backtraceLoop, hf, hl]
  | step rip rbp f line rip' rbp' rest hf hl hne hr1 hr2 hrec ih =>
    intro fuel hfuel
    cases fuel with
    | zero => simp at hfuel
    | succ n =>
      have hlen : rest.length ≤ n := by
        simp only [List.length_cons] at hfuel
        omega
      simp [backtraceLoop, hf, hl, hne, hr1, hr2, ih n hlen]

/-- A frame chain always ends in a `main` frame. -/
theorem frameChain_last (dd : DwarfData) (mem : Mem) {rip rbp : Nat}
    {frames : List (String × Nat)}
    (hchain : FrameChain dd mem rip rbp frames) :
    ∃ line init, frames = init ++ [("main", line)] := by
  induction hchain with
  | main rip rbp line hf hl => exact ⟨line, [], rfl⟩
  | step rip rbp f line rip' rbp' rest hf hl hne hr1 hr2 hrec ih =>
    obtain ⟨l, init, heq⟩ := ih
    exact ⟨l, (f, line) :: init, by rw [heq]; rfl⟩

/-- C7: for a stopped target whose frame-pointer chain reaches the entry
function at depth N, `print_backtrace` emits exactly the N (function,
line) pairs innermost-to-outermost, the last resolving to `main` — the
only termination condition is the resolved name equalling `main`, so under
this precondition the loop terminates for every sufficient fuel. -/
theorem print_backtrace_chain (st : Inferior) (dd : DwarfData)
    (frames : List (String × Nat)) (fuel : Nat)
    (hchain : FrameChain dd st.mem st.regs.rip st.regs.rbp frames)
    (hfuel : frames.length ≤ fuel) :
    print_backtrace st dd fuel = .ok frames ∧
    ∃ line init, frames = init ++ [("main", line)] :=
  ⟨backtraceLoop_chain dd st.mem hchain fuel hfuel, frameChain_last dd st.mem hchain⟩

/-- C7 witness: the two-frame chain `foo` → `main` of `infC7`. -/
theorem print_backtrace_chain_witness :
    FrameChain ddC7 infC7.mem infC7.regs.rip infC7.regs.rbp [("foo", 3), ("main", 7)] ∧
    (print_backtrace infC7 ddC7 5 = .ok [("foo", 3), ("main", 7)] ∧
      ∃ line init, ([("foo", 3), ("main", 7)] : List (String × Nat)) =
        init ++ [("main", line)]) := by
  have hmain : FrameChain ddC7 memC7 300 400 [("main", 7)] :=
    FrameChain.main 300 400 7 rfl rfl
  have hchain : FrameChain ddC7 memC7 100 200 [("foo", 3), ("main", 7)] :=
    FrameChain.step 100 200 "foo" 3 300 400 [("main", 7)] rfl rfl (by decide) rfl rfl hmain
  exact ⟨hchain, print_backtrace_chain infC7 ddC7 _ 5 hchain (by decide)⟩

end Deet
